import Mathlib

/-!
# stockGO: a ledger of cash and positions, and a random market feed

A shallow embedding of `stock.go`.

* `float64` values: the claims that take cash and prices as exact numbers are
  settled on an embedding where they are rationals (`StockGO.BuyStock`, ...); the
  claims about the ledger that do not are settled on an embedding where they are
  IEEE 754 binary64 values with rounding, infinities and not-a-number
  (`StockGO.Float64.BuyStock`, ...). Both follow the source statement by statement.
* Go's `int` is the 64-bit two's-complement integer: values are `Int`s and every
  `+` and `-` of the source is followed by `wrapInt`.
* `map[string]*Stock` is a function from symbols to optional positions; a missing
  key and a `nil` entry both read as `none`, as `p.Stocks[symbol] == nil` does.
  Every position of a ledger is a record of its own (the ledger only stores what
  `NewStock` returned), so writing through the pointer is an update of the entry.
* A method that mutates its receiver and returns an `error` becomes a function
  returning the new receiver and the optional error.
* The value returned by `rand.Intn` / `rand.Float64` is an extra argument.
* The mutexes are not part of the sequential state.
-/

namespace StockGO

/-! ## Machine integers -/

/-- Smallest value of Go's 64-bit `int`. -/
def minInt : Int := -(2 ^ 63)

/-- Largest value of Go's 64-bit `int`. -/
def maxInt : Int := 2 ^ 63 - 1

/-- Two's-complement wrap-around of an exact integer result into the range of `int`. -/
def wrapInt (x : Int) : Int := (x + 2 ^ 63) % 2 ^ 64 - 2 ^ 63

/-- The integer is a value of Go's `int`. -/
def IsInt (x : Int) : Prop := minInt ≤ x ∧ x ≤ maxInt

instance (x : Int) : Decidable (IsInt x) := by
  unfold IsInt; infer_instance

/-! ## Data model -/

/-- The Go struct `Stock` (without its mutex). -/
structure Stock where
  Symbol : String
  CurrentPrice : ℚ
  TradingVolume : Int
  OrderBookDepth : Int
deriving DecidableEq

/-- The Go struct `Portfolio` (without its mutex). -/
structure Portfolio where
  Cash : ℚ
  Stocks : String → Option Stock

/-- The Go function `NewStock`. -/
def NewStock (symbol : String) (initialPrice : ℚ) (initialVolume : Int)
    (orderBookDepth : Int) : Stock :=
  ⟨symbol, initialPrice, initialVolume, orderBookDepth⟩

/-- The Go function `NewPortfolio`: the given cash and an empty map. -/
def NewPortfolio (initialCash : ℚ) : Portfolio :=
  ⟨initialCash, fun _ => none⟩

/-! ## Buying and selling -/

/-- The Go method `Portfolio.BuyStock`: the ledger after the call and the returned error. -/
def BuyStock (p : Portfolio) (symbol : String) (price : ℚ) (quantity : Int) :
    Portfolio × Option String :=
  if p.Cash < price * (quantity : ℚ) then
    (p, some "insufficient funds")
  else
    let stock : Stock :=
      match p.Stocks symbol with
      | none => NewStock symbol price 0 0
      | some s => s
    let stock : Stock := ⟨stock.Symbol, price, stock.TradingVolume, stock.OrderBookDepth⟩
    let stock : Stock :=
      ⟨stock.Symbol, stock.CurrentPrice, wrapInt (stock.TradingVolume + quantity),
        stock.OrderBookDepth⟩
    (⟨p.Cash - price * (quantity : ℚ), Function.update p.Stocks symbol (some stock)⟩, none)

/-- The Go method `Portfolio.SellStock`: the ledger after the call and the returned error. -/
def SellStock (p : Portfolio) (symbol : String) (price : ℚ) (quantity : Int) :
    Portfolio × Option String :=
  match p.Stocks symbol with
  | none => (p, some "insufficient stocks to sell")
  | some stock =>
    if stock.TradingVolume < quantity then
      (p, some "insufficient stocks to sell")
    else
      let stock : Stock := ⟨stock.Symbol, price, stock.TradingVolume, stock.OrderBookDepth⟩
      let stock : Stock :=
        ⟨stock.Symbol, stock.CurrentPrice, wrapInt (stock.TradingVolume - quantity),
          stock.OrderBookDepth⟩
      let cash : ℚ := p.Cash + price * (quantity : ℚ)
      if stock.TradingVolume = 0 then
        (⟨cash, Function.update p.Stocks symbol none⟩, none)
      else
        (⟨cash, Function.update p.Stocks symbol (some stock)⟩, none)

/-- A ledger with the given cash and a single position. -/
def ledgerWith (cash : ℚ) (symbol : String) (price : ℚ) (volume : Int) : Portfolio :=
  ⟨cash, Function.update (fun _ => none) symbol (some (NewStock symbol price volume 0))⟩

/-- Volume the ledger holds of a symbol, 0 when it has no position in it. -/
def volumeOrZero (p : Portfolio) (symbol : String) : Int :=
  match p.Stocks symbol with
  | none => 0
  | some s => s.TradingVolume

/-- What the specification promises of a successful buy: the symbol has a position
at the traded price whose volume is the previous volume (0 if absent) plus
`quantity` as an exact sum, cash went down by `price * quantity`, and every
other symbol is untouched. -/
def BuyPost (p : Portfolio) (symbol : String) (price : ℚ) (quantity : Int)
    (q : Portfolio) : Prop :=
  (∃ s, q.Stocks symbol = some s ∧ s.CurrentPrice = price ∧
      s.TradingVolume = volumeOrZero p symbol + quantity) ∧
  q.Cash = p.Cash - price * (quantity : ℚ) ∧
  ∀ other, other ≠ symbol → q.Stocks other = p.Stocks other

/-- What the specification promises of a successful sale out of a position of
volume `v`: cash went up by `price * quantity`, every other symbol is untouched,
the position is gone when `v - quantity` (an exact difference) is zero and
otherwise stays with the traded price and volume `v - quantity`. -/
def SellPost (p : Portfolio) (symbol : String) (price : ℚ) (quantity : Int) (v : Int)
    (q : Portfolio) : Prop :=
  q.Cash = p.Cash + price * (quantity : ℚ) ∧
  (∀ other, other ≠ symbol → q.Stocks other = p.Stocks other) ∧
  (v - quantity = 0 → q.Stocks symbol = none) ∧
  (v - quantity ≠ 0 → ∃ s, q.Stocks symbol = some s ∧ s.CurrentPrice = price ∧
      s.TradingVolume = v - quantity)

/-! ## Sequences of calls against one ledger -/

/-- One call against a ledger: `BuyStock` or `SellStock` with its arguments. -/
inductive Call where
  | buy (symbol : String) (price : ℚ) (quantity : Int)
  | sell (symbol : String) (price : ℚ) (quantity : Int)

/-- Price argument of a call. -/
def Call.price : Call → ℚ
  | .buy _ price _ => price
  | .sell _ price _ => price

/-- Quantity argument of a call. -/
def Call.quantity : Call → Int
  | .buy _ _ quantity => quantity
  | .sell _ _ quantity => quantity

/-- Run one call: the ledger after it and the error it returned. -/
def applyCall (p : Portfolio) : Call → Portfolio × Option String
  | .buy symbol price quantity => BuyStock p symbol price quantity
  | .sell symbol price quantity => SellStock p symbol price quantity

/-! ## Market feed -/

/-- The Go function `generateRandomPriceUpdate`; `u` is the value of `rand.Float64()`. -/
def generateRandomPriceUpdate (u : ℚ) (currentPrice : ℚ) : ℚ :=
  let priceChange : ℚ := (u - 0.5) * 0.04 * currentPrice
  currentPrice + priceChange

/-- The argument `currentVolume/10+1` that `generateRandomVolumeUpdate` passes to
`rand.Intn`; Go's `/` truncates toward zero. -/
def intnArg (currentVolume : Int) : Int :=
  wrapInt (Int.tdiv currentVolume 10 + 1)

/-- The local `volumeChange` of `generateRandomVolumeUpdate`; `r` is the value of
`rand.Intn(currentVolume/10+1)`. -/
def volumeChange (r : Int) (currentVolume : Int) : Int :=
  wrapInt (r - currentVolume)

/-- The Go function `generateRandomVolumeUpdate`; `r` is the value of
`rand.Intn(currentVolume/10+1)`, which panics (`none`) when its argument is not
positive. -/
def generateRandomVolumeUpdate (r : Int) (currentVolume : Int) : Option Int :=
  if intnArg currentVolume ≤ 0 then none
  else some (wrapInt (currentVolume + volumeChange r currentVolume))

/-- One iteration of the loop of `Stock.SimulateMarket`, with the two random
values it draws. -/
def SimulateMarketStep (u : ℚ) (r : Int) (s : Stock) : Option Stock :=
  let price : ℚ := generateRandomPriceUpdate u s.CurrentPrice
  match generateRandomVolumeUpdate r s.TradingVolume with
  | none => none
  | some volume => some ⟨s.Symbol, price, volume, s.OrderBookDepth⟩

/-- The first iterations of the loop of `Stock.SimulateMarket`, one for each pair
of random values. -/
def SimulateMarket : List (ℚ × Int) → Stock → Option Stock
  | [], s => some s
  | (u, r) :: rest, s =>
    match SimulateMarketStep u r s with
    | none => none
    | some t => SimulateMarket rest t

/-- The random values are ones the generator can return at each iteration:
`rand.Float64` a number of `[0, 1)` and `rand.Intn(n)` an integer of `[0, n)`
for the `n` computed from the volume of that iteration. -/
def ValidDraws : List (ℚ × Int) → Stock → Prop
  | [], _ => True
  | (u, r) :: rest, s =>
    (0 ≤ u ∧ u < 1) ∧ (0 ≤ r ∧ r < intnArg s.TradingVolume) ∧
    match SimulateMarketStep u r s with
    | none => True
    | some t => ValidDraws rest t

/-- The ledger after a sequence of calls run one after the other. -/
def runCalls (p : Portfolio) : List Call → Portfolio
  | [] => p
  | k :: rest => runCalls (applyCall p k).1 rest

/-- Proceeds of the sells that succeeded minus cost of the buys that succeeded,
over a sequence of calls run one after the other. -/
def netProceeds (p : Portfolio) : List Call → ℚ
  | [] => 0
  | k :: rest =>
    (match (applyCall p k).2, k with
      | some _, _ => 0
      | none, .buy _ price quantity => -(price * (quantity : ℚ))
      | none, .sell _ price quantity => price * (quantity : ℚ)) +
    netProceeds (applyCall p k).1 rest

/-! ## float64 arithmetic

The values of Go's `float64` (IEEE 754 binary64) and its operations with
round-to-nearest, ties-to-even. The sign of zero is not kept: no comparison and
no `+`, `-`, `*` of this program tells the two zeros apart. Each operation
rounds on its own (no fused multiply-add). -/

/-- A value of `float64`: a finite number, an infinity, or not-a-number. -/
inductive F64 where
  | finite (q : ℚ)
  | posInf
  | negInf
  | nan
deriving DecidableEq, Repr

/-- Nearest integer, a tie going to the even neighbour. -/
def roundHalfEven (x : ℚ) : Int :=
  if x - ⌊x⌋ < 1 / 2 then ⌊x⌋
  else if 1 / 2 < x - ⌊x⌋ then ⌊x⌋ + 1
  else if ⌊x⌋ % 2 = 0 then ⌊x⌋ else ⌊x⌋ + 1

/-- Rounding of an exact result to `float64`: 53 significant bits, exponent at
least -1022 (below it the spacing stays `2 ^ -1074`), and an infinity once the
rounded magnitude reaches `2 ^ 1024`. -/
def round64 (x : ℚ) : F64 :=
  if x = 0 then .finite 0
  else
    let e : Int := max (Int.log 2 |x|) (-1022)
    let quantum : ℚ := 2 ^ (e - 52)
    let y : ℚ := (roundHalfEven (|x| / quantum) : ℚ) * quantum
    if (2 : ℚ) ^ (1024 : Int) ≤ y then (if 0 < x then .posInf else .negInf)
    else .finite (if 0 < x then y else -y)

/-- The conversion `float64(n)` of an `int`. -/
def F64.ofInt (n : Int) : F64 := round64 (n : ℚ)

/-- Negation. -/
def F64.neg : F64 → F64
  | .finite x => .finite (-x)
  | .posInf => .negInf
  | .negInf => .posInf
  | .nan => .nan

/-- The `+` of `float64`. -/
def F64.add : F64 → F64 → F64
  | .finite x, .finite y => round64 (x + y)
  | .finite _, .posInf => .posInf
  | .finite _, .negInf => .negInf
  | .posInf, .finite _ => .posInf
  | .posInf, .posInf => .posInf
  | .negInf, .finite _ => .negInf
  | .negInf, .negInf => .negInf
  | _, _ => .nan

/-- The `-` of `float64`. -/
def F64.sub (a b : F64) : F64 := F64.add a (F64.neg b)

/-- The `*` of `float64`. -/
def F64.mul : F64 → F64 → F64
  | .finite x, .finite y => round64 (x * y)
  | .finite x, .posInf => if x = 0 then .nan else if 0 < x then .posInf else .negInf
  | .finite x, .negInf => if x = 0 then .nan else if 0 < x then .negInf else .posInf
  | .posInf, .finite y => if y = 0 then .nan else if 0 < y then .posInf else .negInf
  | .negInf, .finite y => if y = 0 then .nan else if 0 < y then .negInf else .posInf
  | .posInf, .posInf => .posInf
  | .posInf, .negInf => .negInf
  | .negInf, .posInf => .negInf
  | .negInf, .negInf => .posInf
  | _, _ => .nan

/-- The `<` of `float64`: false as soon as one side is not-a-number. -/
def F64.lt : F64 → F64 → Bool
  | .finite x, .finite y => decide (x < y)
  | .finite _, .posInf => true
  | .negInf, .finite _ => true
  | .negInf, .posInf => true
  | _, _ => false

/-- The `<=` of `float64`: false as soon as one side is not-a-number. -/
def F64.le : F64 → F64 → Bool
  | .finite x, .finite y => decide (x ≤ y)
  | .finite _, .posInf => true
  | .negInf, .finite _ => true
  | .negInf, .posInf => true
  | .posInf, .posInf => true
  | .negInf, .negInf => true
  | _, _ => false

/-- The value is a finite number. -/
def F64.isFinite : F64 → Bool
  | .finite _ => true
  | _ => false

/-- The error condition of `BuyStock` read over exact numbers: an error is
returned exactly when `cash < price * quantity`. -/
def BuyErrorSpec (cash price : ℚ) (quantity : Int) (err : Option String) : Prop :=
  err ≠ none ↔ cash < price * (quantity : ℚ)

/-! ## The ledger over float64

The same source functions with `Cash` and `CurrentPrice` as `float64` values. -/

namespace Float64

/-- The Go struct `Stock` (without its mutex). -/
structure Stock where
  Symbol : String
  CurrentPrice : F64
  TradingVolume : Int
  OrderBookDepth : Int
deriving DecidableEq

/-- The Go struct `Portfolio` (without its mutex). -/
structure Portfolio where
  Cash : F64
  Stocks : String → Option Stock

/-- The Go function `NewStock`. -/
def NewStock (symbol : String) (initialPrice : F64) (initialVolume : Int)
    (orderBookDepth : Int) : Stock :=
  ⟨symbol, initialPrice, initialVolume, orderBookDepth⟩

/-- The Go function `NewPortfolio`: the given cash and an empty map. -/
def NewPortfolio (initialCash : F64) : Portfolio :=
  ⟨initialCash, fun _ => none⟩

/-- The Go method `Portfolio.BuyStock`: the ledger after the call and the returned error. -/
def BuyStock (p : Portfolio) (symbol : String) (price : F64) (quantity : Int) :
    Portfolio × Option String :=
  if F64.lt p.Cash (F64.mul price (F64.ofInt quantity)) then
    (p, some "insufficient funds")
  else
    let stock : Stock :=
      match p.Stocks symbol with
      | none => NewStock symbol price 0 0
      | some s => s
    let stock : Stock := ⟨stock.Symbol, price, stock.TradingVolume, stock.OrderBookDepth⟩
    let stock : Stock :=
      ⟨stock.Symbol, stock.CurrentPrice, wrapInt (stock.TradingVolume + quantity),
        stock.OrderBookDepth⟩
    (⟨F64.sub p.Cash (F64.mul price (F64.ofInt quantity)),
      Function.update p.Stocks symbol (some stock)⟩, none)

/-- The Go method `Portfolio.SellStock`: the ledger after the call and the returned error. -/
def SellStock (p : Portfolio) (symbol : String) (price : F64) (quantity : Int) :
    Portfolio × Option String :=
  match p.Stocks symbol with
  | none => (p, some "insufficient stocks to sell")
  | some stock =>
    if stock.TradingVolume < quantity then
      (p, some "insufficient stocks to sell")
    else
      let stock : Stock := ⟨stock.Symbol, price, stock.TradingVolume, stock.OrderBookDepth⟩
      let stock : Stock :=
        ⟨stock.Symbol, stock.CurrentPrice, wrapInt (stock.TradingVolume - quantity),
          stock.OrderBookDepth⟩
      let cash : F64 := F64.add p.Cash (F64.mul price (F64.ofInt quantity))
      if stock.TradingVolume = 0 then
        (⟨cash, Function.update p.Stocks symbol none⟩, none)
      else
        (⟨cash, Function.update p.Stocks symbol (some stock)⟩, none)

/-- Volume the ledger holds of a symbol, 0 when it has no position in it. -/
def volumeOrZero (p : Portfolio) (symbol : String) : Int :=
  match p.Stocks symbol with
  | none => 0
  | some s => s.TradingVolume

/-- One call against a ledger: `BuyStock` or `SellStock` with its arguments. -/
inductive Call where
  | buy (symbol : String) (price : F64) (quantity : Int)
  | sell (symbol : String) (price : F64) (quantity : Int)

/-- Price argument of a call. -/
def Call.price : Call → F64
  | .buy _ price _ => price
  | .sell _ price _ => price

/-- Quantity argument of a call. -/
def Call.quantity : Call → Int
  | .buy _ _ quantity => quantity
  | .sell _ _ quantity => quantity

/-- Run one call: the ledger after it and the error it returned. -/
def applyCall (p : Portfolio) : Call → Portfolio × Option String
  | .buy symbol price quantity => BuyStock p symbol price quantity
  | .sell symbol price quantity => SellStock p symbol price quantity

/-- The ledgers observed after each call of a sequence run in order, failed calls
included. -/
def statesAfter (p : Portfolio) : List Call → List Portfolio
  | [] => []
  | k :: rest => (applyCall p k).1 :: statesAfter (applyCall p k).1 rest

/-- Cash is not negative: the Go comparison `p.Cash >= 0` holds. -/
def CashNonNegative (p : Portfolio) : Prop :=
  F64.le (.finite 0) p.Cash = true

/-- No position has a negative volume. -/
def VolumesNonNegative (p : Portfolio) : Prop :=
  ∀ symbol s, p.Stocks symbol = some s → 0 ≤ s.TradingVolume

/-- Cash is not negative and no position has a negative volume. -/
def NonNegative (p : Portfolio) : Prop :=
  CashNonNegative p ∧ VolumesNonNegative p

/-- The cost `price * float64(quantity)` of every buy of the sequence is a finite
number. -/
def FiniteBuyCosts : List Call → Prop
  | [] => True
  | .buy _ price quantity :: rest =>
    F64.isFinite (F64.mul price (F64.ofInt quantity)) = true ∧ FiniteBuyCosts rest
  | .sell _ _ _ :: rest => FiniteBuyCosts rest

/-- No buy of the sequence that passes the funds check takes the volume held of its
symbol beyond `maxInt`. -/
def NoVolumeOverflow (p : Portfolio) : List Call → Prop
  | [] => True
  | k :: rest =>
    (match k with
      | .buy symbol price quantity =>
        F64.lt p.Cash (F64.mul price (F64.ofInt quantity)) = false →
          volumeOrZero p symbol + quantity ≤ maxInt
      | .sell _ _ _ => True) ∧
    NoVolumeOverflow (applyCall p k).1 rest

/-- Every position of the ledger has a volume between 0 and `maxInt`. -/
def VolumesInRange (p : Portfolio) : Prop :=
  ∀ symbol s, p.Stocks symbol = some s → 0 ≤ s.TradingVolume ∧ s.TradingVolume ≤ maxInt

end Float64

/-! ## Theorems -/

/-- C2: `SellStock` returns the error "insufficient stocks to sell" exactly when
the ledger has no position in the symbol or the position holds less than
`quantity`, it returns no other error, and whenever it returns an error the
ledger it leaves is the ledger it was given. -/
theorem SellStock_error_iff (p : Portfolio) (symbol : String) (price : ℚ) (quantity : Int) :
    ((SellStock p symbol price quantity).2 = some "insufficient stocks to sell"
        ↔ (p.Stocks symbol = none ∨
            ∃ s, p.Stocks symbol = some s ∧ s.TradingVolume < quantity)) ∧
    ((SellStock p symbol price quantity).2 ≠ none
        ↔ (p.Stocks symbol = none ∨
            ∃ s, p.Stocks symbol = some s ∧ s.TradingVolume < quantity)) ∧
    ((SellStock p symbol price quantity).2 ≠ none →
        (SellStock p symbol price quantity).1 = p) := by
  unfold SellStock
  cases hs : p.Stocks symbol with
  | none => simp
  | some s =>
    by_cases hv : s.TradingVolume < quantity
    · simp [hv]
    · by_cases hz : wrapInt (s.TradingVolume - quantity) = 0
      · simp [hv, hz]
      · simp [hv, hz]

/-- C2, scenario: a ledger without a position in "Y" cannot sell "Y": the call
fails and the ledger is the one it was. -/
theorem SellStock_error_iff_witness :
    (SellStock (NewPortfolio 1000) "Y" 10 1).2 = some "insufficient stocks to sell" ∧
    (SellStock (NewPortfolio 1000) "Y" 10 1).1 = NewPortfolio 1000 := by
  have h := SellStock_error_iff (NewPortfolio 1000) "Y" 10 1
  have hn : (NewPortfolio 1000).Stocks "Y" = none := rfl
  exact ⟨h.1.2 (Or.inl hn), h.2.2 (h.2.1.2 (Or.inl hn))⟩

/-! ### Wrap-around is the identity on the range of `int` -/

theorem wrapInt_of_isInt (x : Int) (h : IsInt x) : wrapInt x = x := by
  unfold IsInt minInt maxInt at h
  unfold wrapInt
  have h1 : (x + 2 ^ 63) % 2 ^ 64 = x + 2 ^ 63 :=
    Int.emod_eq_of_lt (by omega) (by omega)
  omega

/-! ### Buying -/

/-- C3, as written, fails: after `BuyStock("X", 0, maxInt)` on a new ledger with
cash 0 the position X holds `maxInt`; a further `BuyStock("X", 0, 1)` is
affordable and succeeds, and the volume it leaves is `minInt`, not `maxInt + 1`. -/
theorem buy_volume_wraps :
    (BuyStock (NewPortfolio 0) "X" 0 maxInt).2 = none ∧
    (BuyStock (NewPortfolio 0) "X" 0 maxInt).1.Cash ≥ (0 : ℚ) * ((1 : Int) : ℚ) ∧
    (BuyStock (BuyStock (NewPortfolio 0) "X" 0 maxInt).1 "X" 0 1).2 = none ∧
    ((BuyStock (BuyStock (NewPortfolio 0) "X" 0 maxInt).1 "X" 0 1).1.Stocks "X").map
        Stock.TradingVolume = some minInt ∧
    ¬ BuyPost (BuyStock (NewPortfolio 0) "X" 0 maxInt).1 "X" 0 1
        (BuyStock (BuyStock (NewPortfolio 0) "X" 0 maxInt).1 "X" 0 1).1 := by
  have e1 : wrapInt maxInt = maxInt := by
    unfold wrapInt maxInt; norm_num
  have e2 : wrapInt (maxInt + 1) = minInt := by
    unfold wrapInt maxInt minInt; norm_num
  have hb : BuyStock (NewPortfolio 0) "X" 0 maxInt =
      (⟨0, Function.update (fun _ => none) "X" (some ⟨"X", 0, maxInt, 0⟩)⟩, none) := by
    simp [BuyStock, NewPortfolio, NewStock, e1]
  have hb2 : (BuyStock (BuyStock (NewPortfolio 0) "X" 0 maxInt).1 "X" 0 1) =
      (⟨0, Function.update (Function.update (fun _ => none) "X" (some ⟨"X", 0, maxInt, 0⟩))
        "X" (some ⟨"X", 0, minInt, 0⟩)⟩, none) := by
    rw [hb]
    simp [BuyStock, e2]
  rw [hb2, hb]
  refine ⟨rfl, by norm_num, rfl, by simp, ?_⟩
  rintro ⟨⟨s, hs, -, hv⟩, -, -⟩
  simp only [Function.update_same, Option.some.injEq] at hs
  subst hs
  simp [volumeOrZero, minInt, maxInt] at hv

/-- C3, amended: when `cash >= price * quantity` and the exact sum of the volume
held before (0 if there is no position) and `quantity` is a value of `int`,
`BuyStock` returns no error and leaves a position for the symbol with last price
`price` and volume previous + `quantity`, cash lowered by `price * quantity`, and
every other symbol as before. -/
theorem BuyStock_post (p : Portfolio) (symbol : String) (price : ℚ) (quantity : Int)
    (hcash : p.Cash ≥ price * (quantity : ℚ))
    (hfit : IsInt (volumeOrZero p symbol + quantity)) :
    (BuyStock p symbol price quantity).2 = none ∧
    BuyPost p symbol price quantity (BuyStock p symbol price quantity).1 := by
  have hn : ¬ p.Cash < price * (quantity : ℚ) := not_lt.mpr hcash
  unfold BuyPost
  unfold volumeOrZero at hfit ⊢
  unfold BuyStock
  rw [if_neg hn]
  refine ⟨rfl, ⟨_, Function.update_same _ _ _, rfl, ?_⟩, rfl, ?_⟩
  · cases hs : p.Stocks symbol with
    | none =>
      rw [hs] at hfit
      simpa [NewStock] using wrapInt_of_isInt _ hfit
    | some s =>
      rw [hs] at hfit
      simpa using wrapInt_of_isInt _ hfit
  · intro other ho
    exact Function.update_noteq ho _ _

/-- C3, scenario: with cash 1000, buying 5 of "X" at 10 succeeds, cash becomes 950
and position X has volume 5. -/
theorem BuyStock_post_witness :
    (BuyStock (NewPortfolio 1000) "X" 10 5).2 = none ∧
    (BuyStock (NewPortfolio 1000) "X" 10 5).1.Cash = 950 ∧
    ((BuyStock (NewPortfolio 1000) "X" 10 5).1.Stocks "X").map Stock.TradingVolume
      = some 5 := by
  have h := BuyStock_post (NewPortfolio 1000) "X" 10 5
    (by simp only [NewPortfolio]; norm_num)
    (by simp only [volumeOrZero, NewPortfolio]; unfold IsInt minInt maxInt; norm_num)
  obtain ⟨herr, ⟨s, hs, -, hv⟩, hc, -⟩ := h
  refine ⟨herr, ?_, ?_⟩
  · rw [hc]; simp only [NewPortfolio]; norm_num
  · rw [hs]; simp only [Option.map_some', hv, volumeOrZero, NewPortfolio]; norm_num

/-! ### Selling -/

/-- C4: under the precondition `quantity > 0` of the sell contract, when the
ledger holds a position in the symbol with volume `v >= quantity` (a value of
`int`), `SellStock` returns no error, raises cash by `price * quantity`, leaves
every other symbol as before, removes the position when `v - quantity = 0`, and
otherwise keeps it with last price `price` and volume `v - quantity`. -/
theorem SellStock_post (p : Portfolio) (symbol : String) (price : ℚ) (quantity : Int)
    (s : Stock) (hpos : p.Stocks symbol = some s) (hint : IsInt s.TradingVolume)
    (hq : 0 < quantity) (hvol : s.TradingVolume ≥ quantity) :
    (SellStock p symbol price quantity).2 = none ∧
    SellPost p symbol price quantity s.TradingVolume
      (SellStock p symbol price quantity).1 := by
  have hn : ¬ s.TradingVolume < quantity := not_lt.mpr hvol
  have hw : wrapInt (s.TradingVolume - quantity) = s.TradingVolume - quantity := by
    apply wrapInt_of_isInt
    unfold IsInt minInt maxInt at *
    constructor <;> omega
  unfold SellPost
  unfold SellStock
  rw [hpos]
  simp only [hn, if_false, hw]
  by_cases hz : s.TradingVolume - quantity = 0
  · rw [if_pos hz]
    refine ⟨rfl, rfl, ?_, ?_, ?_⟩
    · intro other ho
      exact Function.update_noteq ho _ _
    · intro _
      exact Function.update_same _ _ _
    · intro h
      exact absurd hz h
  · rw [if_neg hz]
    refine ⟨rfl, rfl, ?_, ?_, ?_⟩
    · intro other ho
      exact Function.update_noteq ho _ _
    · intro h
      exact absurd h hz
    · intro _
      exact ⟨_, Function.update_same _ _ _, rfl, rfl⟩

/-- C4, scenario: with cash 950 and position X of volume 5, selling 5 of "X" at 12
succeeds, cash becomes 1010 and there is no position X. -/
theorem SellStock_post_witness :
    (SellStock (ledgerWith 950 "X" 10 5) "X" 12 5).2 = none ∧
    (SellStock (ledgerWith 950 "X" 10 5) "X" 12 5).1.Cash = 1010 ∧
    (SellStock (ledgerWith 950 "X" 10 5) "X" 12 5).1.Stocks "X" = none := by
  have hpos : (ledgerWith 950 "X" 10 5).Stocks "X" = some (NewStock "X" 10 5 0) := by
    simp [ledgerWith]
  have h := SellStock_post (ledgerWith 950 "X" 10 5) "X" 12 5 (NewStock "X" 10 5 0) hpos
    (by simp [NewStock, IsInt, minInt, maxInt]) (by norm_num) (by simp [NewStock])
  obtain ⟨herr, hc, -, hz, -⟩ := h
  refine ⟨herr, ?_, hz (by simp [NewStock])⟩
  rw [hc]; simp only [ledgerWith]; norm_num

/-! ### Round trip -/

/-- C6: on a ledger with no positions, for every symbol, price >= 0 and quantity
> 0 (a value of `int`), `BuyStock` followed by `SellStock` with the same
arguments leaves exactly the ledger it started from (same cash, no position);
and when the cash covers `price * quantity` both calls return no error. -/
theorem buy_sell_roundtrip (p : Portfolio) (symbol : String) (price : ℚ) (quantity : Int)
    (hempty : ∀ s, p.Stocks s = none) (_hp : 0 ≤ price) (_hq : 0 < quantity)
    (hint : IsInt quantity) :
    (SellStock (BuyStock p symbol price quantity).1 symbol price quantity).1 = p ∧
    (p.Cash ≥ price * (quantity : ℚ) →
      (BuyStock p symbol price quantity).2 = none ∧
      (SellStock (BuyStock p symbol price quantity).1 symbol price quantity).2 = none) := by
  have hw : wrapInt (0 + quantity) = quantity := by
    rw [zero_add]; exact wrapInt_of_isInt _ hint
  have hw0 : wrapInt (quantity - quantity) = 0 := by
    rw [sub_self]; exact wrapInt_of_isInt 0 (by unfold IsInt minInt maxInt; norm_num)
  have hst : p.Stocks = fun _ => none := funext hempty
  by_cases hc : p.Cash < price * (quantity : ℚ)
  · have hb : BuyStock p symbol price quantity = (p, some "insufficient funds") := by
      unfold BuyStock; rw [if_pos hc]
    rw [hb]
    refine ⟨?_, fun h => absurd hc (not_lt.mpr h)⟩
    unfold SellStock
    simp only [hempty symbol]
  · have hb : BuyStock p symbol price quantity =
        (⟨p.Cash - price * (quantity : ℚ),
          Function.update p.Stocks symbol (some ⟨symbol, price, quantity, 0⟩)⟩, none) := by
      unfold BuyStock
      rw [if_neg hc]
      simp only [hempty symbol, NewStock, hw]
    have hs : SellStock (⟨p.Cash - price * (quantity : ℚ),
          Function.update p.Stocks symbol (some ⟨symbol, price, quantity, 0⟩)⟩ : Portfolio)
          symbol price quantity = (p, none) := by
      unfold SellStock
      simp only [Function.update_same, lt_irrefl, if_false, hw0, if_true,
        Function.update_idem]
      have h1 : Function.update p.Stocks symbol none = p.Stocks := by
        rw [← hempty symbol]; exact Function.update_eq_self _ _
      rw [h1]
      have h2 : p.Cash - price * (quantity : ℚ) + price * (quantity : ℚ) = p.Cash := by ring
      rw [h2]
    rw [hb, hs]
    exact ⟨rfl, fun _ => ⟨rfl, rfl⟩⟩

/-- C6, scenario: on a new ledger with cash 1000, buying and then selling 5 of "X"
at 10 gives back the new ledger with cash 1000. -/
theorem buy_sell_roundtrip_witness :
    (SellStock (BuyStock (NewPortfolio 1000) "X" 10 5).1 "X" 10 5).1 = NewPortfolio 1000 ∧
    (BuyStock (NewPortfolio 1000) "X" 10 5).2 = none ∧
    (SellStock (BuyStock (NewPortfolio 1000) "X" 10 5).1 "X" 10 5).2 = none := by
  have h := buy_sell_roundtrip (NewPortfolio 1000) "X" 10 5 (fun _ => rfl)
    (by norm_num) (by norm_num) (by unfold IsInt minInt maxInt; norm_num)
  exact ⟨h.1, h.2 (by simp only [NewPortfolio]; norm_num)⟩

/-! ### Market feed: price -/

/-- C7: for a current price `p >= 0` and a draw `u` of `[0, 1)`,
`generateRandomPriceUpdate` returns `p + (u - 0.5) * 0.04 * p`, which lies in
`[0.98 * p, 1.02 * p]`, so a positive price stays positive; from the seed
price 100 the result lies in `[98, 102]`, and that is the price of the seeded
instrument after one iteration of `SimulateMarket`. -/
theorem priceUpdate_bounds (p u : ℚ) (hp : 0 ≤ p) (hu0 : 0 ≤ u) (hu1 : u < 1) :
    generateRandomPriceUpdate u p = p + (u - 0.5) * 0.04 * p ∧
    0.98 * p ≤ generateRandomPriceUpdate u p ∧
    generateRandomPriceUpdate u p ≤ 1.02 * p ∧
    (0 < p → 0 < generateRandomPriceUpdate u p) ∧
    (98 ≤ generateRandomPriceUpdate u 100 ∧ generateRandomPriceUpdate u 100 ≤ 102) ∧
    (∀ (symbol : String) (r : Int), 0 ≤ r → r < intnArg 1000 →
      ∃ t, SimulateMarketStep u r (NewStock symbol 100 1000 10) = some t ∧
        98 ≤ t.CurrentPrice ∧ t.CurrentPrice ≤ 102) := by
  have hseed : 98 ≤ generateRandomPriceUpdate u 100 ∧
      generateRandomPriceUpdate u 100 ≤ 102 := by
    unfold generateRandomPriceUpdate
    constructor <;> norm_num <;> linarith
  refine ⟨rfl, ?_, ?_, ?_, hseed, ?_⟩
  · unfold generateRandomPriceUpdate
    norm_num
    nlinarith
  · unfold generateRandomPriceUpdate
    norm_num
    nlinarith
  · intro hpos
    unfold generateRandomPriceUpdate
    norm_num
    nlinarith
  · intro symbol r _ _
    have hn : ¬ intnArg 1000 ≤ 0 := by
      unfold intnArg wrapInt; norm_num [Int.tdiv]
    refine ⟨⟨symbol, generateRandomPriceUpdate u 100,
      wrapInt (1000 + volumeChange r 1000), 10⟩, ?_, hseed.1, hseed.2⟩
    simp only [SimulateMarketStep, NewStock, generateRandomVolumeUpdate, if_neg hn]

/-- C7, scenario: with the draw 0.75 the seed price 100 moves to 101, inside
`[98, 102]`. -/
theorem priceUpdate_bounds_witness :
    generateRandomPriceUpdate 0.75 100 = 101 ∧
    98 ≤ generateRandomPriceUpdate 0.75 100 ∧ generateRandomPriceUpdate 0.75 100 ≤ 102 := by
  have h := priceUpdate_bounds 100 0.75 (by norm_num) (by norm_num) (by norm_num)
  refine ⟨?_, h.2.2.2.2.1.1, h.2.2.2.2.1.2⟩
  rw [h.1]; norm_num

/-! ### Market feed: volume -/

theorem intnArg_eq (v : Int) (hv : 0 ≤ v) (hi : IsInt v) : intnArg v = v / 10 + 1 := by
  unfold intnArg
  rw [Int.tdiv_eq_ediv hv (by norm_num)]
  apply wrapInt_of_isInt
  unfold IsInt minInt maxInt at *
  constructor <;> omega

theorem volumeChange_eq (v r : Int) (hv : 0 ≤ v) (hi : IsInt v) (hr0 : 0 ≤ r)
    (hr : r ≤ v / 10) : volumeChange r v = r - v := by
  unfold volumeChange
  apply wrapInt_of_isInt
  unfold IsInt minInt maxInt at *
  constructor <;> omega

theorem generateRandomVolumeUpdate_eq (v r : Int) (hv : 0 ≤ v) (hi : IsInt v) (hr0 : 0 ≤ r)
    (hr : r ≤ v / 10) : generateRandomVolumeUpdate r v = some r := by
  have hn : ¬ intnArg v ≤ 0 := by
    rw [intnArg_eq v hv hi]; omega
  unfold generateRandomVolumeUpdate
  rw [if_neg hn, volumeChange_eq v r hv hi hr0 hr]
  have : v + (r - v) = r := by ring
  rw [this, wrapInt_of_isInt r]
  unfold IsInt minInt maxInt at *
  constructor <;> omega

/-- C8: for a current volume `v >= 0` (a value of `int`) the argument
`v/10 + 1` passed to `rand.Intn` is positive, and for every draw `r` with
`0 <= r <= v/10` the function returns `v` plus the perturbation `r - v`, the
perturbation lies in `[-v, v/10]` and the result lies in `[0, v + v/10]`; from
the seed volume 1000 the result lies in `[0, 1100]`. -/
theorem volumeUpdate_bounds (v : Int) (hv : 0 ≤ v) (hi : IsInt v) :
    0 < intnArg v ∧ intnArg v = Int.tdiv v 10 + 1 ∧
    ∀ r : Int, 0 ≤ r → r ≤ Int.tdiv v 10 →
      generateRandomVolumeUpdate r v = some (v + volumeChange r v) ∧
      volumeChange r v = r - v ∧
      -v ≤ volumeChange r v ∧ volumeChange r v ≤ Int.tdiv v 10 ∧
      0 ≤ v + volumeChange r v ∧ v + volumeChange r v ≤ v + Int.tdiv v 10 ∧
      (v = 1000 → v + volumeChange r v ≤ 1100) := by
  have ht : Int.tdiv v 10 = v / 10 := Int.tdiv_eq_ediv hv (by norm_num)
  have ha := intnArg_eq v hv hi
  rw [ht]
  refine ⟨by rw [ha]; omega, ha, ?_⟩
  intro r hr0 hr
  have hc := volumeChange_eq v r hv hi hr0 hr
  have hg := generateRandomVolumeUpdate_eq v r hv hi hr0 hr
  rw [hc, hg]
  refine ⟨by congr 1; ring, rfl, by omega, by omega, by omega, by omega, ?_⟩
  intro h1000
  omega

/-- C8, scenario: from the seed volume 1000 the argument of `rand.Intn` is 101
and the draw 100 gives the volume 100, inside `[0, 1100]`. -/
theorem volumeUpdate_bounds_witness :
    0 < intnArg 1000 ∧
    generateRandomVolumeUpdate 100 1000 = some (1000 + volumeChange 100 1000) ∧
    0 ≤ 1000 + volumeChange 100 1000 ∧ 1000 + volumeChange 100 1000 ≤ 1100 := by
  have h := volumeUpdate_bounds 1000 (by norm_num)
    (by unfold IsInt minInt maxInt; norm_num)
  have h2 := h.2.2 100 (by norm_num) (by norm_num [Int.tdiv])
  exact ⟨h.1, h2.1, h2.2.2.2.2.1, h2.2.2.2.2.2.2 rfl⟩

/-! ### Market feed: the volume collapses -/

theorem SimulateMarketStep_volume (u : ℚ) (r : Int) (s : Stock)
    (hv : 0 ≤ s.TradingVolume) (hi : IsInt s.TradingVolume)
    (hr0 : 0 ≤ r) (hr : r < intnArg s.TradingVolume) :
    SimulateMarketStep u r s =
      some ⟨s.Symbol, generateRandomPriceUpdate u s.CurrentPrice, r, s.OrderBookDepth⟩ ∧
    r * 10 ≤ s.TradingVolume ∧ IsInt r := by
  rw [intnArg_eq _ hv hi] at hr
  have hr2 : r ≤ s.TradingVolume / 10 := by omega
  have hg := generateRandomVolumeUpdate_eq s.TradingVolume r hv hi hr0 hr2
  refine ⟨?_, by omega, ?_⟩
  · simp only [SimulateMarketStep, hg]
  · unfold IsInt minInt maxInt at *
    constructor <;> omega

theorem SimulateMarket_volume (draws : List (ℚ × Int)) :
    ∀ s : Stock, 0 ≤ s.TradingVolume → IsInt s.TradingVolume → ValidDraws draws s →
      ∃ t, SimulateMarket draws s = some t ∧ 0 ≤ t.TradingVolume ∧
        t.TradingVolume * 10 ^ draws.length ≤ s.TradingVolume := by
  induction draws with
  | nil =>
    intro s hv _ _
    exact ⟨s, rfl, hv, by simp⟩
  | cons d rest ih =>
    obtain ⟨u, r⟩ := d
    intro s hv hi hd
    obtain ⟨-, ⟨hr0, hr⟩, hrest⟩ := hd
    obtain ⟨hstep, h10, hri⟩ := SimulateMarketStep_volume u r s hv hi hr0 hr
    rw [hstep] at hrest
    obtain ⟨t, ht, ht0, htb⟩ := ih _ hr0 hri hrest
    refine ⟨t, ?_, ht0, ?_⟩
    · simp only [SimulateMarket, hstep]
      exact ht
    · have hpow : (0 : Int) ≤ 10 ^ rest.length := by positivity
      have e : t.TradingVolume * 10 ^ (rest.length + 1)
          = (t.TradingVolume * 10 ^ rest.length) * 10 := by ring
      simp only [List.length_cons]
      rw [e]
      have := htb
      simp only at this
      omega

/-- C10: for a current volume `v >= 0` (a value of `int`) and a draw `r` of
`[0, v/10]`, `generateRandomVolumeUpdate` returns exactly `r`, which is at most
`v/10`; and from the instrument `NewStock(symbol, 100, 1000, 10)` of `main`,
for every sequence of at least four iterations of `SimulateMarket` with draws
the generator can return, the iterations all run and leave the volume 0. -/
theorem volume_collapse :
    (∀ v r : Int, 0 ≤ v → IsInt v → 0 ≤ r → r ≤ Int.tdiv v 10 →
      generateRandomVolumeUpdate r v = some r ∧ r ≤ Int.tdiv v 10) ∧
    (∀ (symbol : String) (draws : List (ℚ × Int)),
      ValidDraws draws (NewStock symbol 100 1000 10) → 4 ≤ draws.length →
      ∃ t, SimulateMarket draws (NewStock symbol 100 1000 10) = some t ∧
        t.TradingVolume = 0) := by
  constructor
  · intro v r hv hi hr0 hr
    refine ⟨?_, hr⟩
    rw [Int.tdiv_eq_ediv hv (by norm_num)] at hr
    exact generateRandomVolumeUpdate_eq v r hv hi hr0 hr
  · intro symbol draws hd hlen
    have hi : IsInt (NewStock symbol 100 1000 10).TradingVolume := by
      simp only [NewStock]; unfold IsInt minInt maxInt; norm_num
    obtain ⟨t, ht, ht0, htb⟩ :=
      SimulateMarket_volume draws (NewStock symbol 100 1000 10)
        (by simp [NewStock]) hi hd
    refine ⟨t, ht, ?_⟩
    simp only [NewStock] at htb
    by_contra hne
    have h1 : 1 ≤ t.TradingVolume := by omega
    have hp : (10 : Int) ^ 4 ≤ 10 ^ draws.length :=
      pow_le_pow_right₀ (by norm_num) hlen
    have hp0 : (0 : Int) ≤ 10 ^ draws.length := by positivity
    have h2 : 1 * 10 ^ draws.length ≤ t.TradingVolume * 10 ^ draws.length :=
      mul_le_mul_of_nonneg_right h1 hp0
    norm_num at hp
    linarith

/-- C10, scenario: with the largest draws 100, 10, 1, 0 the seed volume 1000 is
0 after four iterations and still 0 after a fifth. -/
theorem volume_collapse_witness :
    (generateRandomVolumeUpdate 100 1000 = some 100) ∧
    (∃ t, SimulateMarket [(0.5, 100), (0.5, 10), (0.5, 1), (0.5, 0), (0.5, 0)]
        (NewStock "YNDX" 100 1000 10) = some t ∧ t.TradingVolume = 0) := by
  refine ⟨(volume_collapse.1 1000 100 (by norm_num)
      (by unfold IsInt minInt maxInt; norm_num) (by norm_num)
      (by norm_num [Int.tdiv])).1, ?_⟩
  refine volume_collapse.2 "YNDX" _ ?_ (by simp)
  have a1 : Int.tdiv 1000 10 = 100 := by norm_num [Int.tdiv]
  have a2 : Int.tdiv 100 10 = 10 := by norm_num [Int.tdiv]
  have a3 : Int.tdiv 10 10 = 1 := by norm_num [Int.tdiv]
  have a4 : Int.tdiv 1 10 = 0 := by norm_num [Int.tdiv]
  have a5 : Int.tdiv 0 10 = 0 := by norm_num [Int.tdiv]
  have w0 : wrapInt 0 = 0 := by unfold wrapInt; norm_num
  have w1 : wrapInt 1 = 1 := by unfold wrapInt; norm_num
  have w2 : wrapInt 2 = 2 := by unfold wrapInt; norm_num
  have w10 : wrapInt 10 = 10 := by unfold wrapInt; norm_num
  have w11 : wrapInt 11 = 11 := by unfold wrapInt; norm_num
  have w100 : wrapInt 100 = 100 := by unfold wrapInt; norm_num
  have w101 : wrapInt 101 = 101 := by unfold wrapInt; norm_num
  have wm900 : wrapInt (-900) = -900 := by unfold wrapInt; norm_num
  have wm90 : wrapInt (-90) = -90 := by unfold wrapInt; norm_num
  have wm9 : wrapInt (-9) = -9 := by unfold wrapInt; norm_num
  have wm1 : wrapInt (-1) = -1 := by unfold wrapInt; norm_num
  norm_num [ValidDraws, SimulateMarketStep, generateRandomVolumeUpdate, intnArg,
    volumeChange, NewStock, a1, a2, a3, a4, a5, w0, w1, w2, w10, w11, w100, w101,
    wm900, wm90, wm9, wm1]

/-! ### Cash accounting of a sequential run

Each call holds the mutex of the ledger from its first to its last statement, so a
run of concurrent callers is some sequential order of their calls; for every such
order the final cash is the initial cash plus the net proceeds of the calls that
succeeded. -/

theorem applyCall_cash (p : Portfolio) (k : Call) :
    (applyCall p k).1.Cash = p.Cash + netProceeds p [k] := by
  cases k with
  | buy symbol price quantity =>
    simp only [netProceeds, applyCall, add_zero]
    unfold BuyStock
    by_cases hc : p.Cash < price * (quantity : ℚ)
    · simp [hc]
    · simp only [hc, if_false]; ring
  | sell symbol price quantity =>
    simp only [netProceeds, applyCall, add_zero]
    unfold SellStock
    cases hs : p.Stocks symbol with
    | none => simp
    | some s =>
      by_cases hv : s.TradingVolume < quantity
      · simp [hv]
      · simp only [hv, if_false]
        split_ifs <;> rfl

theorem runCalls_cash (calls : List Call) :
    ∀ p : Portfolio, (runCalls p calls).Cash = p.Cash + netProceeds p calls := by
  induction calls with
  | nil => intro p; simp [runCalls, netProceeds]
  | cons k rest ih =>
    intro p
    have h1 := applyCall_cash p k
    simp only [netProceeds, add_zero] at h1
    simp only [runCalls, netProceeds]
    rw [ih, h1]
    ring

/-! ### Rounding to float64 -/

theorem roundHalfEven_intCast (z : Int) : roundHalfEven (z : ℚ) = z := by
  unfold roundHalfEven
  simp

theorem roundHalfEven_nonneg (x : ℚ) (hx : 0 ≤ x) : 0 ≤ roundHalfEven x := by
  have hf : 0 ≤ ⌊x⌋ := Int.floor_nonneg.mpr hx
  unfold roundHalfEven
  split_ifs <;> omega

theorem roundHalfEven_ge_floor (x : ℚ) : ⌊x⌋ ≤ roundHalfEven x := by
  unfold roundHalfEven
  split_ifs <;> omega

theorem roundHalfEven_le (x : ℚ) (n : Int) (hx : x ≤ n) : roundHalfEven x ≤ n := by
  have hfl : ⌊x⌋ ≤ n := Int.floor_le_iff.mpr (by
    have : (n : ℚ) < n + 1 := by linarith
    linarith)
  unfold roundHalfEven
  split_ifs with h1 h2 h3
  · exact hfl
  · -- frac > 1/2, so floor < x ≤ n, floor + 1 ≤ n
    have hlt : (⌊x⌋ : ℚ) < n := by linarith
    have : ⌊x⌋ < n := by exact_mod_cast hlt
    omega
  · exact hfl
  · have hfr : (0 : ℚ) ≤ x - ⌊x⌋ := by linarith [Int.floor_le x]
    have hlt : (⌊x⌋ : ℚ) < n := by
      have : x - ⌊x⌋ = 1 / 2 := le_antisymm (not_lt.mp h2) (not_lt.mp h1)
      linarith
    have : ⌊x⌋ < n := by exact_mod_cast hlt
    omega

theorem roundHalfEven_half (z : Int) (hz : z % 2 = 0) :
    roundHalfEven ((z : ℚ) + 1 / 2) = z := by
  have hf : ⌊(z : ℚ) + 1 / 2⌋ = z := by
    rw [Int.floor_eq_iff]; constructor <;> norm_num
  unfold roundHalfEven
  rw [hf]
  norm_num [hz]


theorem log2_eq (x : ℚ) (e : Int) (hx : 0 < x) (h1 : (2 : ℚ) ^ e ≤ x)
    (h2 : x < (2 : ℚ) ^ (e + 1)) : Int.log 2 x = e := by
  have hb : 1 < 2 := by norm_num
  have a1 : e ≤ Int.log 2 x := by
    rw [← Int.zpow_le_iff_le_log hb hx]; exact_mod_cast h1
  have a2 : Int.log 2 x < e + 1 := by
    rw [← Int.lt_zpow_iff_log_lt hb hx]; exact_mod_cast h2
  omega

theorem log2_bounds (x : ℚ) (hx : 0 < x) :
    (2 : ℚ) ^ Int.log 2 x ≤ x ∧ x < (2 : ℚ) ^ (Int.log 2 x + 1) := by
  have hb : 1 < 2 := by norm_num
  have a1 := Int.zpow_log_le_self (R := ℚ) hb hx
  have a2 := Int.lt_zpow_succ_log_self (R := ℚ) hb x
  constructor
  · exact_mod_cast a1
  · exact_mod_cast a2

/-- Rounding a positive number whose binary exponent (clamped below at the
smallest normal exponent) is `e`. -/
theorem round64_of_exponent (x : ℚ) (e : Int) (hx : 0 < x)
    (he : max (Int.log 2 x) (-1022) = e) :
    round64 x =
      if (2 : ℚ) ^ (1024 : Int) ≤ (roundHalfEven (x / 2 ^ (e - 52)) : ℚ) * 2 ^ (e - 52) then .posInf
      else .finite ((roundHalfEven (x / 2 ^ (e - 52)) : ℚ) * 2 ^ (e - 52)) := by
  unfold round64
  rw [if_neg hx.ne', abs_of_pos hx]
  simp only [he, hx, if_true]

theorem round64_nonneg (x : ℚ) (hx : 0 ≤ x) :
    round64 x = .posInf ∨ ∃ y, round64 x = .finite y ∧ 0 ≤ y := by
  rcases hx.eq_or_lt with h0 | hpos
  · right; exact ⟨0, by rw [← h0]; simp [round64], le_refl _⟩
  · rw [round64_of_exponent x _ hpos rfl]
    split_ifs
    · left; rfl
    · right
      refine ⟨_, rfl, ?_⟩
      have hq : (0 : ℚ) < 2 ^ (max (Int.log 2 x) (-1022) - 52) := zpow_pos (by norm_num) _
      have hm : 0 ≤ roundHalfEven (x / 2 ^ (max (Int.log 2 x) (-1022) - 52)) :=
        roundHalfEven_nonneg _ (div_nonneg hpos.le hq.le)
      have hm2 : (0 : ℚ) ≤ (roundHalfEven (x / 2 ^ (max (Int.log 2 x) (-1022) - 52)) : ℚ) := by
        exact_mod_cast hm
      positivity

/-- A number of the form `m * 2 ^ (e - 52)` with `e` its binary exponent in the
normal range is a float64 and rounds to itself. -/
theorem round64_exact (x : ℚ) (e : Int) (m : Int) (hx : 0 < x) (he : -1022 ≤ e)
    (he2 : e ≤ 1023) (h1 : (2 : ℚ) ^ e ≤ x) (h2 : x < (2 : ℚ) ^ (e + 1))
    (hm : x = (m : ℚ) * 2 ^ (e - 52)) : round64 x = .finite x := by
  have hl := log2_eq x e hx h1 h2
  have hq : (0 : ℚ) < 2 ^ (e - 52) := zpow_pos (by norm_num) _
  have hdiv : x / 2 ^ (e - 52) = (m : ℚ) := by
    rw [hm]; field_simp
  rw [round64_of_exponent x e hx (by rw [hl]; exact max_eq_left he), hdiv,
    roundHalfEven_intCast, ← hm]
  have hlt : x < (2 : ℚ) ^ (1024 : ℤ) := by
    have : (2 : ℚ) ^ (e + 1) ≤ 2 ^ (1024 : ℤ) :=
      zpow_le_zpow_right₀ (by norm_num) (by omega)
    linarith
  rw [if_neg (not_le.mpr hlt)]

/-- Rounding a number of the normal range below `2 ^ 1023` gives a finite
float64 of the same binade. -/
theorem round64_normal (x : ℚ) (e : Int) (hx : 0 < x) (he : -1022 ≤ e)
    (he2 : e ≤ 1022) (h1 : (2 : ℚ) ^ e ≤ x) (h2 : x < (2 : ℚ) ^ (e + 1)) :
    ∃ y, round64 x = .finite y ∧ (2 : ℚ) ^ e ≤ y ∧ y ≤ (2 : ℚ) ^ (e + 1) := by
  have hl := log2_eq x e hx h1 h2
  have hq : (0 : ℚ) < 2 ^ (e - 52) := zpow_pos (by norm_num) _
  have e1 : (2 : ℚ) ^ e = 2 ^ (52 : ℤ) * 2 ^ (e - 52) := by
    rw [← zpow_add₀ (by norm_num)]; congr 1; ring
  have e2 : (2 : ℚ) ^ (e + 1) = 2 ^ (53 : ℤ) * 2 ^ (e - 52) := by
    rw [← zpow_add₀ (by norm_num)]; congr 1; ring
  have t1 : (2 : ℚ) ^ (52 : ℤ) ≤ x / 2 ^ (e - 52) := by
    rw [le_div_iff₀ hq, ← e1]; exact h1
  have t2 : x / 2 ^ (e - 52) ≤ ((2 ^ 53 : Int) : ℚ) := by
    rw [div_le_iff₀ hq]
    have : (((2 ^ 53 : Int) : ℚ)) = (2 : ℚ) ^ (53 : ℤ) := by norm_cast
    rw [this, ← e2]; exact h2.le
  have m1 : (2 ^ 52 : Int) ≤ roundHalfEven (x / 2 ^ (e - 52)) := by
    refine le_trans ?_ (roundHalfEven_ge_floor _)
    rw [Int.le_floor]
    have : (((2 ^ 52 : Int) : ℚ)) = (2 : ℚ) ^ (52 : ℤ) := by norm_cast
    rw [this]; exact t1
  have m2 := roundHalfEven_le _ _ t2
  have m1q : (2 : ℚ) ^ (52 : ℤ) ≤ (roundHalfEven (x / 2 ^ (e - 52)) : ℚ) := by
    have : (((2 ^ 52 : Int) : ℚ)) ≤ (roundHalfEven (x / 2 ^ (e - 52)) : ℚ) := by
      exact_mod_cast m1
    have h3 : (((2 ^ 52 : Int) : ℚ)) = (2 : ℚ) ^ (52 : ℤ) := by norm_cast
    rw [← h3]; exact this
  have m2q : (roundHalfEven (x / 2 ^ (e - 52)) : ℚ) ≤ (2 : ℚ) ^ (53 : ℤ) := by
    have : (roundHalfEven (x / 2 ^ (e - 52)) : ℚ) ≤ (((2 ^ 53 : Int) : ℚ)) := by
      exact_mod_cast m2
    have h3 : (((2 ^ 53 : Int) : ℚ)) = (2 : ℚ) ^ (53 : ℤ) := by norm_cast
    rw [← h3]; exact this
  have y1 : (2 : ℚ) ^ e ≤ (roundHalfEven (x / 2 ^ (e - 52)) : ℚ) * 2 ^ (e - 52) := by
    rw [e1]; exact mul_le_mul_of_nonneg_right m1q hq.le
  have y2 : (roundHalfEven (x / 2 ^ (e - 52)) : ℚ) * 2 ^ (e - 52) ≤ (2 : ℚ) ^ (e + 1) := by
    rw [e2]; exact mul_le_mul_of_nonneg_right m2q hq.le
  rw [round64_of_exponent x e hx (by rw [hl]; exact max_eq_left he)]
  have hlt : (roundHalfEven (x / 2 ^ (e - 52)) : ℚ) * 2 ^ (e - 52) < (2 : ℚ) ^ (1024 : ℤ) := by
    have a : (2 : ℚ) ^ (e + 1) < 2 ^ (1024 : ℤ) :=
      zpow_lt_zpow_right₀ (by norm_num) (by omega)
    linarith
  rw [if_neg (not_le.mpr hlt)]
  exact ⟨_, rfl, y1, y2⟩


theorem ofInt_pos (q : Int) (hq : 0 < q) (hi : IsInt q) :
    ∃ y, F64.ofInt q = .finite y ∧ 0 < y := by
  have hx : (0 : ℚ) < (q : ℚ) := by exact_mod_cast hq
  have hb : 1 < 2 := by norm_num
  obtain ⟨b1, b2⟩ := log2_bounds (q : ℚ) hx
  have e0 : 0 ≤ Int.log 2 (q : ℚ) := by
    rw [← Int.zpow_le_iff_le_log hb hx]
    have : (1 : ℚ) ≤ (q : ℚ) := by exact_mod_cast hq
    simpa using this
  have e1 : Int.log 2 (q : ℚ) < 63 := by
    rw [← Int.lt_zpow_iff_log_lt hb hx]
    have h63 : q < 2 ^ 63 := by
      unfold IsInt maxInt at hi; omega
    have h1 : (q : ℚ) < ((2 ^ 63 : Int) : ℚ) := by exact_mod_cast h63
    have h2 : (((2 : ℕ) : ℚ)) ^ (63 : ℤ) = ((2 ^ 63 : Int) : ℚ) := by norm_num
    rw [h2]; exact h1
  obtain ⟨y, hy, hy1, -⟩ :=
    round64_normal (q : ℚ) (Int.log 2 (q : ℚ)) hx (by omega) (by omega) b1 b2
  exact ⟨y, hy, lt_of_lt_of_le (zpow_pos (by norm_num) _) hy1⟩

theorem round64_zero : round64 0 = .finite 0 := by
  simp [round64]

theorem round64_small_int (n : Nat) (e : Nat) (he : e ≤ 52) (h1 : 2 ^ e ≤ n)
    (h2 : n < 2 ^ (e + 1)) : round64 (n : ℚ) = .finite (n : ℚ) := by
  have hn : 0 < n := lt_of_lt_of_le (by positivity) h1
  have h1q : (2 : ℚ) ^ (e : ℤ) ≤ (n : ℚ) := by
    rw [zpow_natCast]; exact_mod_cast h1
  have h2q : (n : ℚ) < (2 : ℚ) ^ ((e : ℤ) + 1) := by
    have : ((e : ℤ) + 1) = ((e + 1 : ℕ) : ℤ) := by push_cast; ring
    rw [this, zpow_natCast]; exact_mod_cast h2
  refine round64_exact (n : ℚ) (e : ℤ) ((n * 2 ^ (52 - e) : ℕ) : ℤ) (by exact_mod_cast hn)
    (by omega) (by omega) h1q h2q ?_
  have hq : (2 : ℚ) ^ ((e : ℤ) - 52) = ((2 : ℚ) ^ (52 - e))⁻¹ := by
    rw [← zpow_natCast, ← zpow_neg]
    congr 1
    omega
  rw [hq]
  push_cast
  field_simp

namespace Float64

/-! ### The funds check of a buy -/

theorem lt_irrefl_finite (x : ℚ) : F64.lt (.finite x) (.finite x) = false := by
  simp [F64.lt]

theorem mul_one_finite (y : ℚ) : F64.mul (.finite 1) (.finite y) = round64 y := by
  simp [F64.mul]

theorem mul_zero_finite (y : ℚ) : F64.mul (.finite 0) (.finite y) = .finite 0 := by
  simp [F64.mul, round64_zero]

theorem sub_self_finite (x : ℚ) : F64.sub (.finite x) (.finite x) = .finite 0 := by
  simp [F64.sub, F64.neg, F64.add, round64_zero]

theorem BuyStock_of_guard_false (p : Portfolio) (symbol : String) (price : F64)
    (quantity : Int) (h : F64.lt p.Cash (F64.mul price (F64.ofInt quantity)) = false) :
    BuyStock p symbol price quantity =
      (⟨F64.sub p.Cash (F64.mul price (F64.ofInt quantity)),
        Function.update p.Stocks symbol
          (some ⟨(match p.Stocks symbol with
                  | none => NewStock symbol price 0 0
                  | some s => s).Symbol, price,
                wrapInt ((match p.Stocks symbol with
                  | none => NewStock symbol price 0 0
                  | some s => s).TradingVolume + quantity),
                (match p.Stocks symbol with
                  | none => NewStock symbol price 0 0
                  | some s => s).OrderBookDepth⟩)⟩, none) := by
  unfold BuyStock
  simp [h]

theorem roundHalfEven_of_lt_half (x : ℚ) (z : Int) (h1 : (z : ℚ) ≤ x)
    (h2 : x - z < 1 / 2) : roundHalfEven x = z := by
  have hf : ⌊x⌋ = z := by
    rw [Int.floor_eq_iff]; constructor <;> linarith
  unfold roundHalfEven
  rw [hf, if_pos h2]

/-- The float64 nearest to 0.1 is `3602879701896397 / 2^55`; with cash 0.5 a buy of
5 at that price costs exactly more than 0.5, but the product rounds to 0.5 and
`BuyStock` returns no error. -/
theorem buy_at_rounded_cost :
    round64 (3602879701896397 / 36028797018963968)
      = .finite (3602879701896397 / 36028797018963968) ∧
    ((1 / 2 : ℚ) < 3602879701896397 / 36028797018963968 * ((5 : Int) : ℚ)) ∧
    (BuyStock (NewPortfolio (.finite (1 / 2))) "X"
      (.finite (3602879701896397 / 36028797018963968)) 5).2 = none := by
  have rp : round64 (3602879701896397 / 36028797018963968)
      = .finite (3602879701896397 / 36028797018963968) :=
    round64_exact _ (-4) 7205759403792794 (by norm_num) (by norm_num) (by norm_num)
      (by norm_num) (by norm_num) (by norm_num)
  have o5 : F64.ofInt 5 = .finite 5 := by
    have := round64_small_int 5 2 (by norm_num) (by norm_num) (by norm_num)
    unfold F64.ofInt
    simpa using this
  have hx : (0 : ℚ) < 3602879701896397 / 36028797018963968 * 5 := by norm_num
  have hl : Int.log 2 ((3602879701896397 : ℚ) / 36028797018963968 * 5) = -1 :=
    log2_eq _ (-1) hx (by norm_num) (by norm_num)
  have rprod : round64 (3602879701896397 / 36028797018963968 * 5) = .finite (1 / 2) := by
    rw [round64_of_exponent _ (-1) hx (by rw [hl]; norm_num)]
    have hr : roundHalfEven ((3602879701896397 : ℚ) / 36028797018963968 * 5
        / 2 ^ ((-1 : ℤ) - 52)) = 2 ^ 52 :=
      roundHalfEven_of_lt_half _ _ (by norm_num) (by norm_num)
    rw [hr]
    norm_num
  have hguard : F64.lt (NewPortfolio (.finite (1 / 2))).Cash
      (F64.mul (.finite (3602879701896397 / 36028797018963968)) (F64.ofInt 5)) = false := by
    rw [o5]
    simp only [F64.mul]
    rw [rprod]
    exact lt_irrefl_finite _
  refine ⟨rp, by norm_num, ?_⟩
  rw [BuyStock_of_guard_false _ _ _ _ hguard]

/-- C1, as written over exact numbers, fails: with cash `2^53`, price 1 and
quantity `2^53 + 1` (all values of their Go types, quantity > 0, price >= 0)
cash is less than `price * quantity`, but `float64(quantity)` rounds to `2^53`,
the guard `cash < price * float64(quantity)` is false and `BuyStock` returns no
error. -/
theorem buy_guard_rounds :
    round64 (2 ^ 53) = .finite (2 ^ 53) ∧ round64 1 = .finite 1 ∧
    IsInt (2 ^ 53 + 1) ∧
    ((2 : ℚ) ^ 53 < 1 * ((2 ^ 53 + 1 : Int) : ℚ)) ∧
    (BuyStock (NewPortfolio (.finite (2 ^ 53))) "X" (.finite 1) (2 ^ 53 + 1)).2 = none ∧
    ¬ BuyErrorSpec (2 ^ 53) 1 (2 ^ 53 + 1)
        (BuyStock (NewPortfolio (.finite (2 ^ 53))) "X" (.finite 1) (2 ^ 53 + 1)).2 := by
  have r53 : round64 (2 ^ 53) = .finite (2 ^ 53) :=
    round64_exact _ 53 (2 ^ 52) (by norm_num) (by norm_num) (by norm_num)
      (by norm_num) (by norm_num) (by norm_num)
  have r1 : round64 1 = .finite 1 := by
    have := round64_small_int 1 0 (by norm_num) (by norm_num) (by norm_num)
    simpa using this
  have hconv : F64.ofInt (2 ^ 53 + 1) = .finite (2 ^ 53) := by
    unfold F64.ofInt
    have hx : (0 : ℚ) < ((2 ^ 53 + 1 : Int) : ℚ) := by norm_num
    have hl : Int.log 2 (((2 ^ 53 + 1 : Int) : ℚ)) = 53 :=
      log2_eq _ 53 hx (by norm_num) (by norm_num)
    rw [round64_of_exponent _ 53 hx (by rw [hl]; norm_num)]
    have hd : (((2 ^ 53 + 1 : Int) : ℚ)) / 2 ^ ((53 : ℤ) - 52)
        = ((2 ^ 52 : Int) : ℚ) + 1 / 2 := by
      norm_num
    rw [hd, roundHalfEven_half _ (by norm_num)]
    norm_num
  have hguard : F64.lt (NewPortfolio (.finite (2 ^ 53))).Cash
      (F64.mul (.finite 1) (F64.ofInt (2 ^ 53 + 1))) = false := by
    rw [hconv, mul_one_finite, r53]
    exact lt_irrefl_finite _
  have herr : (BuyStock (NewPortfolio (.finite (2 ^ 53))) "X" (.finite 1) (2 ^ 53 + 1)).2
      = none := by
    rw [BuyStock_of_guard_false _ _ _ _ hguard]
  refine ⟨r53, r1, by unfold IsInt minInt maxInt; norm_num, by norm_num, herr, ?_⟩
  rw [herr]
  unfold BuyErrorSpec
  norm_num

/-- C1, amended: `BuyStock` returns the error "insufficient funds" exactly when
the float64 comparison `cash < price * float64(quantity)` holds (conversion and
product each rounded to float64), it returns no other error, and whenever it
returns an error the ledger it leaves is the ledger it was given; when cash and
price are finite and the conversion and the product are exact, the error is
returned exactly when `cash < price * quantity`. -/
theorem BuyStock_error_iff (p : Portfolio) (symbol : String) (price : F64) (quantity : Int) :
    ((BuyStock p symbol price quantity).2 = some "insufficient funds"
        ↔ F64.lt p.Cash (F64.mul price (F64.ofInt quantity)) = true) ∧
    ((BuyStock p symbol price quantity).2 ≠ none
        ↔ F64.lt p.Cash (F64.mul price (F64.ofInt quantity)) = true) ∧
    ((BuyStock p symbol price quantity).2 ≠ none →
        (BuyStock p symbol price quantity).1 = p) ∧
    (∀ c x : ℚ, p.Cash = .finite c → price = .finite x →
        F64.ofInt quantity = .finite (quantity : ℚ) →
        round64 (x * (quantity : ℚ)) = .finite (x * (quantity : ℚ)) →
        BuyErrorSpec c x quantity (BuyStock p symbol price quantity).2) := by
  have key : ((BuyStock p symbol price quantity).2 = some "insufficient funds"
        ↔ F64.lt p.Cash (F64.mul price (F64.ofInt quantity)) = true) ∧
      ((BuyStock p symbol price quantity).2 ≠ none
        ↔ F64.lt p.Cash (F64.mul price (F64.ofInt quantity)) = true) ∧
      ((BuyStock p symbol price quantity).2 ≠ none →
        (BuyStock p symbol price quantity).1 = p) := by
    unfold BuyStock
    cases h : F64.lt p.Cash (F64.mul price (F64.ofInt quantity)) <;> simp
  refine ⟨key.1, key.2.1, key.2.2, ?_⟩
  intro c x hc hx hconv hprod
  unfold BuyErrorSpec
  rw [key.2.1, hc, hx, hconv]
  simp only [F64.mul, hprod, F64.lt, decide_eq_true_eq]

/-- C1, scenario: with cash 100, buying 3 of "X" at 50 fails, cash stays 100 and
there is no position in "X". -/
theorem BuyStock_error_iff_witness :
    (BuyStock (NewPortfolio (.finite 100)) "X" (.finite 50) 3).2
      = some "insufficient funds" ∧
    (BuyStock (NewPortfolio (.finite 100)) "X" (.finite 50) 3).1.Cash = .finite 100 ∧
    (BuyStock (NewPortfolio (.finite 100)) "X" (.finite 50) 3).1.Stocks "X" = none := by
  have h := BuyStock_error_iff (NewPortfolio (.finite 100)) "X" (.finite 50) 3
  have h3 : F64.ofInt 3 = .finite ((3 : Int) : ℚ) := by
    have := round64_small_int 3 1 (by norm_num) (by norm_num) (by norm_num)
    unfold F64.ofInt
    simpa using this
  have h150 : round64 (50 * ((3 : Int) : ℚ)) = .finite (50 * ((3 : Int) : ℚ)) := by
    have := round64_small_int 150 7 (by norm_num) (by norm_num) (by norm_num)
    have e : (50 : ℚ) * ((3 : Int) : ℚ) = ((150 : ℕ) : ℚ) := by norm_num
    rw [e]; exact this
  have hspec := h.2.2.2 100 50 rfl rfl h3 h150
  have hne : (BuyStock (NewPortfolio (.finite 100)) "X" (.finite 50) 3).2 ≠ none :=
    hspec.mpr (by norm_num)
  have herr := h.1.mpr (h.2.1.mp hne)
  have hst := h.2.2.1 hne
  refine ⟨herr, ?_, ?_⟩
  · rw [hst]; rfl
  · rw [hst]; rfl

/-! ### Non-negativity along a sequence of calls -/

theorem nonneg_cases (x : F64) (h : F64.le (.finite 0) x = true) :
    x = .posInf ∨ ∃ y, x = .finite y ∧ 0 ≤ y := by
  cases x with
  | finite y => right; exact ⟨y, rfl, by simpa [F64.le] using h⟩
  | posInf => left; rfl
  | negInf => simp [F64.le] at h
  | nan => simp [F64.le] at h

theorem nonneg_round64 (x : ℚ) (hx : 0 ≤ x) : F64.le (.finite 0) (round64 x) = true := by
  rcases round64_nonneg x hx with h | ⟨y, h, hy⟩
  · rw [h]; rfl
  · rw [h]; simpa [F64.le] using hy

theorem proceeds_nonneg (price : F64) (quantity : Int) (hq : 0 < quantity)
    (hi : IsInt quantity) (hp : F64.le (.finite 0) price = true) :
    F64.le (.finite 0) (F64.mul price (F64.ofInt quantity)) = true := by
  obtain ⟨z, hz, hz0⟩ := ofInt_pos quantity hq hi
  rw [hz]
  rcases nonneg_cases price hp with h | ⟨x, h, hx⟩
  · rw [h]
    simp [F64.mul, hz0.ne', hz0, F64.le]
  · rw [h]
    simp only [F64.mul]
    exact nonneg_round64 _ (mul_nonneg hx hz0.le)

theorem add_nonneg_f64 (a b : F64) (ha : F64.le (.finite 0) a = true)
    (hb : F64.le (.finite 0) b = true) : F64.le (.finite 0) (F64.add a b) = true := by
  rcases nonneg_cases a ha with h1 | ⟨x, h1, hx⟩ <;>
    rcases nonneg_cases b hb with h2 | ⟨y, h2, hy⟩ <;> rw [h1, h2]
  · rfl
  · rfl
  · rfl
  · simp only [F64.add]
    exact nonneg_round64 _ (add_nonneg hx hy)

theorem sub_nonneg_f64 (a b : F64) (ha : F64.le (.finite 0) a = true)
    (hb : F64.isFinite b = true) (h : F64.lt a b = false) :
    F64.le (.finite 0) (F64.sub a b) = true := by
  cases b with
  | finite y =>
    rcases nonneg_cases a ha with h1 | ⟨x, h1, -⟩
    · rw [h1]; rfl
    · rw [h1] at h ⊢
      have hxy : y ≤ x := by simpa [F64.lt] using h
      simp only [F64.sub, F64.neg, F64.add]
      exact nonneg_round64 _ (by linarith)
  | posInf => simp [F64.isFinite] at hb
  | negInf => simp [F64.isFinite] at hb
  | nan => simp [F64.isFinite] at hb

theorem BuyStock_cash_nonneg (p : Portfolio) (symbol : String) (price : F64)
    (quantity : Int) (h : CashNonNegative p)
    (hfin : F64.isFinite (F64.mul price (F64.ofInt quantity)) = true) :
    CashNonNegative (BuyStock p symbol price quantity).1 := by
  cases hg : F64.lt p.Cash (F64.mul price (F64.ofInt quantity)) with
  | true =>
    unfold BuyStock
    rw [if_pos hg]; exact h
  | false =>
    rw [BuyStock_of_guard_false p symbol price quantity hg]
    exact sub_nonneg_f64 _ _ h hfin hg

theorem SellStock_cash_nonneg (p : Portfolio) (symbol : String) (price : F64)
    (quantity : Int) (h : CashNonNegative p) (hq : 0 < quantity) (hi : IsInt quantity)
    (hp : F64.le (.finite 0) price = true) :
    CashNonNegative (SellStock p symbol price quantity).1 := by
  have hpos : F64.le (.finite 0) (F64.add p.Cash (F64.mul price (F64.ofInt quantity)))
      = true := add_nonneg_f64 _ _ h (proceeds_nonneg price quantity hq hi hp)
  unfold SellStock
  cases hs : p.Stocks symbol with
  | none => exact h
  | some s =>
    by_cases hv : s.TradingVolume < quantity
    · simp only [hv, if_true]; exact h
    · simp only [hv, if_false]
      split_ifs <;> exact hpos

theorem BuyStock_volumesInRange (p : Portfolio) (symbol : String) (price : F64)
    (quantity : Int) (h : VolumesInRange p) (hq : 0 < quantity)
    (hfit : F64.lt p.Cash (F64.mul price (F64.ofInt quantity)) = false →
      volumeOrZero p symbol + quantity ≤ maxInt) :
    VolumesInRange (BuyStock p symbol price quantity).1 := by
  cases hg : F64.lt p.Cash (F64.mul price (F64.ofInt quantity)) with
  | true =>
    unfold BuyStock
    rw [if_pos hg]; exact h
  | false =>
    rw [BuyStock_of_guard_false p symbol price quantity hg]
    have hfit2 := hfit hg
    intro other t ht
    by_cases ho : other = symbol
    · subst ho
      simp only [Function.update_same, Option.some.injEq] at ht
      subst ht
      show 0 ≤ wrapInt _ ∧ wrapInt _ ≤ maxInt
      unfold volumeOrZero at hfit2
      cases hs : p.Stocks other with
      | none =>
        rw [hs] at hfit2
        have hw := wrapInt_of_isInt (0 + quantity)
          ⟨by unfold minInt; omega, hfit2⟩
        simp only [NewStock]
        rw [hw]
        constructor
        · omega
        · exact hfit2
      | some s =>
        rw [hs] at hfit2
        have hs0 := (h other s hs).1
        have hw := wrapInt_of_isInt (s.TradingVolume + quantity)
          ⟨by unfold minInt; omega, hfit2⟩
        simp only
        rw [hw]
        constructor
        · omega
        · exact hfit2
    · simp only [Function.update_noteq ho] at ht
      exact h other t ht

theorem SellStock_volumesInRange (p : Portfolio) (symbol : String) (price : F64)
    (quantity : Int) (h : VolumesInRange p) (hq : 0 < quantity) :
    VolumesInRange (SellStock p symbol price quantity).1 := by
  unfold SellStock
  cases hs : p.Stocks symbol with
  | none => exact h
  | some s =>
    have hs0 := h symbol s hs
    by_cases hv : s.TradingVolume < quantity
    · simp only [hv, if_true]; exact h
    · simp only [hv, if_false]
      have hw := wrapInt_of_isInt (s.TradingVolume - quantity)
        ⟨by unfold minInt; omega, by omega⟩
      rw [hw]
      split_ifs with hz
      · intro other t ht
        by_cases ho : other = symbol
        · subst ho
          simp at ht
        · simp only [Function.update_noteq ho] at ht
          exact h other t ht
      · intro other t ht
        by_cases ho : other = symbol
        · subst ho
          simp only [Function.update_same, Option.some.injEq] at ht
          subst ht
          show 0 ≤ s.TradingVolume - quantity ∧ s.TradingVolume - quantity ≤ maxInt
          constructor <;> omega
        · simp only [Function.update_noteq ho] at ht
          exact h other t ht

theorem statesAfter_cash_nonneg (calls : List Call) :
    ∀ p : Portfolio, CashNonNegative p →
      (∀ k ∈ calls, 0 < k.quantity ∧ IsInt k.quantity ∧ F64.le (.finite 0) k.price = true) →
      FiniteBuyCosts calls →
      ∀ s ∈ statesAfter p calls, CashNonNegative s := by
  induction calls with
  | nil => intro p _ _ _ s hs; simp [statesAfter] at hs
  | cons k rest ih =>
    intro p hp hk hfin s hs
    have hk0 := hk k (List.mem_cons_self _ _)
    have hstep : CashNonNegative (applyCall p k).1 ∧ FiniteBuyCosts rest := by
      cases k with
      | buy symbol price quantity =>
        exact ⟨BuyStock_cash_nonneg p symbol price quantity hp hfin.1, hfin.2⟩
      | sell symbol price quantity =>
        exact ⟨SellStock_cash_nonneg p symbol price quantity hp hk0.1 hk0.2.1 hk0.2.2, hfin⟩
    simp only [statesAfter, List.mem_cons] at hs
    rcases hs with hs | hs
    · rw [hs]; exact hstep.1
    · exact ih _ hstep.1 (fun j hj => hk j (List.mem_cons_of_mem _ hj)) hstep.2 s hs

theorem statesAfter_volumesInRange (calls : List Call) :
    ∀ p : Portfolio, VolumesInRange p →
      (∀ k ∈ calls, 0 < k.quantity ∧ IsInt k.quantity ∧ F64.le (.finite 0) k.price = true) →
      NoVolumeOverflow p calls →
      ∀ s ∈ statesAfter p calls, VolumesInRange s := by
  induction calls with
  | nil => intro p _ _ _ s hs; simp [statesAfter] at hs
  | cons k rest ih =>
    intro p hp hk hno s hs
    have hk0 := hk k (List.mem_cons_self _ _)
    obtain ⟨hno1, hno2⟩ := hno
    have hstep : VolumesInRange (applyCall p k).1 := by
      cases k with
      | buy symbol price quantity =>
        exact BuyStock_volumesInRange p symbol price quantity hp hk0.1 hno1
      | sell symbol price quantity =>
        exact SellStock_volumesInRange p symbol price quantity hp hk0.1
    simp only [statesAfter, List.mem_cons] at hs
    rcases hs with hs | hs
    · rw [hs]; exact hstep
    · exact ih _ hstep (fun j hj => hk j (List.mem_cons_of_mem _ hj)) hno2 s hs

/-- C5, amended: on a ledger made by `NewPortfolio` with initial cash >= 0, along
every finite sequence of `BuyStock` / `SellStock` calls with quantity > 0 (a
value of `int`) and price >= 0: if the cost `price * float64(quantity)` of every
buy is finite, cash is >= 0 after every call; and if no buy that passes the funds
check takes the held volume of its symbol beyond `maxInt`, every position has
volume >= 0 after every call. -/
theorem nonNegative_invariant (c : F64) (calls : List Call)
    (hc : F64.le (.finite 0) c = true)
    (hcalls : ∀ k ∈ calls,
      0 < k.quantity ∧ IsInt k.quantity ∧ F64.le (.finite 0) k.price = true) :
    (FiniteBuyCosts calls → ∀ s ∈ statesAfter (NewPortfolio c) calls, CashNonNegative s) ∧
    (NoVolumeOverflow (NewPortfolio c) calls →
      ∀ s ∈ statesAfter (NewPortfolio c) calls, VolumesNonNegative s) := by
  refine ⟨statesAfter_cash_nonneg calls (NewPortfolio c) hc hcalls, ?_⟩
  intro hno s hs
  have h0 : VolumesInRange (NewPortfolio c) := by
    intro symbol t ht
    simp [NewPortfolio] at ht
  have hv := statesAfter_volumesInRange calls (NewPortfolio c) h0 hcalls hno s hs
  exact fun symbol t ht => (hv symbol t ht).1

theorem BuyStock_volume_of_guard_false (p : Portfolio) (symbol : String) (price : F64)
    (quantity : Int) (h : F64.lt p.Cash (F64.mul price (F64.ofInt quantity)) = false) :
    (BuyStock p symbol price quantity).1.Cash
      = F64.sub p.Cash (F64.mul price (F64.ofInt quantity)) ∧
    volumeOrZero (BuyStock p symbol price quantity).1 symbol
      = wrapInt (volumeOrZero p symbol + quantity) ∧
    ∃ s, (BuyStock p symbol price quantity).1.Stocks symbol = some s ∧
      s.TradingVolume = wrapInt (volumeOrZero p symbol + quantity) := by
  rw [BuyStock_of_guard_false p symbol price quantity h]
  unfold volumeOrZero
  refine ⟨rfl, ?_, ?_⟩
  · cases hs : p.Stocks symbol <;> simp [NewStock]
  · cases hs : p.Stocks symbol <;> simp [NewStock]

theorem SellStock_cash_of_held (p : Portfolio) (symbol : String) (price : F64)
    (quantity : Int) (s : Stock) (hs : p.Stocks symbol = some s)
    (hv : ¬ s.TradingVolume < quantity) :
    (SellStock p symbol price quantity).1.Cash
      = F64.add p.Cash (F64.mul price (F64.ofInt quantity)) := by
  unfold SellStock
  rw [hs]
  simp only [hv, if_false]
  split_ifs <;> rfl

theorem guard_false_of_zero (quantity : Int) (hq : 0 < quantity) (hi : IsInt quantity) :
    F64.lt (.finite 0) (F64.mul (.finite 0) (F64.ofInt quantity)) = false := by
  obtain ⟨z, hz, -⟩ := ofInt_pos quantity hq hi
  rw [hz, mul_zero_finite]
  exact lt_irrefl_finite 0

theorem round64_two_pow_1023 :
    round64 ((2 : ℚ) ^ (1023 : ℤ)) = .finite ((2 : ℚ) ^ (1023 : ℤ)) := by
  refine round64_exact _ 1023 (2 ^ 52) (zpow_pos (by norm_num) _) (by norm_num)
    (by norm_num) (le_refl _) (zpow_lt_zpow_right₀ (by norm_num) (by norm_num)) ?_
  have h : (((2 ^ 52 : Int) : ℚ)) = (2 : ℚ) ^ (52 : ℤ) := by norm_cast
  rw [h, ← zpow_add₀ (by norm_num)]
  norm_num

theorem round64_two_pow_1024 : round64 ((2 : ℚ) ^ (1023 : ℤ) * 2) = .posInf := by
  have hx : (2 : ℚ) ^ (1023 : ℤ) * 2 = (2 : ℚ) ^ (1024 : ℤ) := by
    rw [← zpow_add_one₀ (by norm_num)]; norm_num
  rw [hx]
  have hpos : (0 : ℚ) < (2 : ℚ) ^ (1024 : ℤ) := zpow_pos (by norm_num) _
  have hl : Int.log 2 ((2 : ℚ) ^ (1024 : ℤ)) = 1024 :=
    log2_eq _ 1024 hpos (le_refl _) (zpow_lt_zpow_right₀ (by norm_num) (by norm_num))
  rw [round64_of_exponent _ 1024 hpos (by rw [hl]; norm_num)]
  have hd : (2 : ℚ) ^ (1024 : ℤ) / 2 ^ ((1024 : ℤ) - 52) = ((2 ^ 52 : Int) : ℚ) := by
    rw [← zpow_sub₀ (by norm_num)]
    norm_num
  have hm : (((2 ^ 52 : Int) : ℚ)) * 2 ^ ((1024 : ℤ) - 52) = (2 : ℚ) ^ (1024 : ℤ) := by
    have h : (((2 ^ 52 : Int) : ℚ)) = (2 : ℚ) ^ (52 : ℤ) := by norm_cast
    rw [h, ← zpow_add₀ (by norm_num)]
    norm_num
  rw [hd, roundHalfEven_intCast, hm, if_pos (le_refl _)]

/-- C5, as written, fails in two ways, on a new ledger with cash 0 and calls of
positive quantity and non-negative price. Volume: after `BuyStock("X", 0, maxInt)`
and `BuyStock("X", 0, 1)` the ledger holds the negative volume `minInt` of X.
Cash: after `BuyStock("X", 0, 2)`, `SellStock("X", 2^1023, 2)` (proceeds overflow
to +Inf) and `BuyStock("X", 2^1023, 2)` (cost +Inf, not more than the cash +Inf)
cash is not-a-number, and `cash >= 0` is false. -/
theorem volume_or_cash_breaks :
    (F64.le (.finite 0) (.finite 0) = true) ∧
    (∀ k ∈ [Call.buy "X" (.finite 0) maxInt, Call.buy "X" (.finite 0) 1],
        0 < k.quantity ∧ IsInt k.quantity ∧ F64.le (.finite 0) k.price = true) ∧
    (¬ ∀ s ∈ statesAfter (NewPortfolio (.finite 0))
          [Call.buy "X" (.finite 0) maxInt, Call.buy "X" (.finite 0) 1],
        NonNegative s) ∧
    round64 ((2 : ℚ) ^ (1023 : ℤ)) = .finite ((2 : ℚ) ^ (1023 : ℤ)) ∧
    (∀ k ∈ [Call.buy "X" (.finite 0) 2, Call.sell "X" (.finite (2 ^ (1023 : ℤ))) 2,
          Call.buy "X" (.finite (2 ^ (1023 : ℤ))) 2],
        0 < k.quantity ∧ IsInt k.quantity ∧ F64.le (.finite 0) k.price = true) ∧
    (¬ ∀ s ∈ statesAfter (NewPortfolio (.finite 0))
          [Call.buy "X" (.finite 0) 2, Call.sell "X" (.finite (2 ^ (1023 : ℤ))) 2,
            Call.buy "X" (.finite (2 ^ (1023 : ℤ))) 2],
        NonNegative s) := by
  have imax : 0 < maxInt ∧ IsInt maxInt := by
    unfold IsInt minInt maxInt; norm_num
  have i1 : (0 : Int) < 1 ∧ IsInt 1 := by
    unfold IsInt minInt maxInt; norm_num
  have i2 : (0 : Int) < 2 ∧ IsInt 2 := by
    unfold IsInt minInt maxInt; norm_num
  have hle0 : F64.le (.finite 0) (.finite 0) = true := by simp [F64.le]
  have hleP : F64.le (.finite 0) (.finite ((2 : ℚ) ^ (1023 : ℤ))) = true := by
    have : (0 : ℚ) ≤ (2 : ℚ) ^ (1023 : ℤ) := (zpow_pos (by norm_num) _).le
    simpa [F64.le] using this
  refine ⟨hle0, ?_, ?_, round64_two_pow_1023, ?_, ?_⟩
  · intro k hk
    simp only [List.mem_cons, List.mem_singleton, List.not_mem_nil, or_false] at hk
    rcases hk with hk | hk <;> subst hk
    · exact ⟨imax.1, imax.2, hle0⟩
    · exact ⟨i1.1, i1.2, hle0⟩
  · -- the volume wraps
    intro h
    have e1 : wrapInt (0 + maxInt) = maxInt := by
      unfold wrapInt maxInt; norm_num
    have e2 : wrapInt (maxInt + 1) = minInt := by
      unfold wrapInt maxInt minInt; norm_num
    have g1 : F64.lt (NewPortfolio (.finite 0)).Cash
        (F64.mul (.finite 0) (F64.ofInt maxInt)) = false :=
      guard_false_of_zero maxInt imax.1 imax.2
    obtain ⟨c1, v1, -⟩ :=
      BuyStock_volume_of_guard_false (NewPortfolio (.finite 0)) "X" (.finite 0) maxInt g1
    have hz : volumeOrZero (NewPortfolio (.finite 0)) "X" = 0 := rfl
    rw [hz, e1] at v1
    have c1b : (BuyStock (NewPortfolio (.finite 0)) "X" (.finite 0) maxInt).1.Cash
        = .finite 0 := by
      obtain ⟨z, hz, -⟩ := ofInt_pos maxInt imax.1 imax.2
      rw [c1, hz, mul_zero_finite]
      exact sub_self_finite 0
    have g2 : F64.lt (BuyStock (NewPortfolio (.finite 0)) "X" (.finite 0) maxInt).1.Cash
        (F64.mul (.finite 0) (F64.ofInt 1)) = false := by
      rw [c1b]; exact guard_false_of_zero 1 i1.1 i1.2
    obtain ⟨-, -, s, hs, hv⟩ :=
      BuyStock_volume_of_guard_false
        (BuyStock (NewPortfolio (.finite 0)) "X" (.finite 0) maxInt).1 "X" (.finite 0) 1 g2
    rw [v1, e2] at hv
    have hmem := h (BuyStock (BuyStock (NewPortfolio (.finite 0)) "X" (.finite 0) maxInt).1
      "X" (.finite 0) 1).1 (by simp [statesAfter, applyCall])
    have hneg := hmem.2 "X" s hs
    rw [hv] at hneg
    unfold minInt at hneg
    norm_num at hneg
  · intro k hk
    simp only [List.mem_cons, List.mem_singleton, List.not_mem_nil, or_false] at hk
    rcases hk with hk | hk | hk <;> subst hk
    · exact ⟨i2.1, i2.2, hle0⟩
    · exact ⟨i2.1, i2.2, hleP⟩
    · exact ⟨i2.1, i2.2, hleP⟩
  · -- cash becomes not-a-number
    intro h
    have o2 : F64.ofInt 2 = .finite 2 := by
      have := round64_small_int 2 1 (by norm_num) (by norm_num) (by norm_num)
      unfold F64.ofInt
      simpa using this
    have e3 : wrapInt (0 + 2) = 2 := by
      unfold wrapInt; norm_num
    have hcost : F64.mul (.finite ((2 : ℚ) ^ (1023 : ℤ))) (F64.ofInt 2) = .posInf := by
      rw [o2]
      simp only [F64.mul]
      exact round64_two_pow_1024
    have g1 : F64.lt (NewPortfolio (.finite 0)).Cash
        (F64.mul (.finite 0) (F64.ofInt 2)) = false :=
      guard_false_of_zero 2 i2.1 i2.2
    obtain ⟨c1, -, s, hs, hv⟩ :=
      BuyStock_volume_of_guard_false (NewPortfolio (.finite 0)) "X" (.finite 0) 2 g1
    have hz : volumeOrZero (NewPortfolio (.finite 0)) "X" = 0 := rfl
    rw [hz, e3] at hv
    have c1b : (BuyStock (NewPortfolio (.finite 0)) "X" (.finite 0) 2).1.Cash
        = .finite 0 := by
      rw [c1, o2, mul_zero_finite]
      exact sub_self_finite 0
    have c2 := SellStock_cash_of_held
      (BuyStock (NewPortfolio (.finite 0)) "X" (.finite 0) 2).1 "X"
      (.finite ((2 : ℚ) ^ (1023 : ℤ))) 2 s hs (by rw [hv]; norm_num)
    rw [c1b, hcost] at c2
    have c2b : (SellStock (BuyStock (NewPortfolio (.finite 0)) "X" (.finite 0) 2).1 "X"
        (.finite ((2 : ℚ) ^ (1023 : ℤ))) 2).1.Cash = .posInf := by
      rw [c2]; rfl
    have g3 : F64.lt (SellStock (BuyStock (NewPortfolio (.finite 0)) "X" (.finite 0) 2).1
        "X" (.finite ((2 : ℚ) ^ (1023 : ℤ))) 2).1.Cash
        (F64.mul (.finite ((2 : ℚ) ^ (1023 : ℤ))) (F64.ofInt 2)) = false := by
      rw [c2b, hcost]; rfl
    obtain ⟨c3, -, -⟩ := BuyStock_volume_of_guard_false _ "X"
      (.finite ((2 : ℚ) ^ (1023 : ℤ))) 2 g3
    rw [c2b, hcost] at c3
    have hmem := h (BuyStock (SellStock (BuyStock (NewPortfolio (.finite 0)) "X"
      (.finite 0) 2).1 "X" (.finite ((2 : ℚ) ^ (1023 : ℤ))) 2).1 "X"
      (.finite ((2 : ℚ) ^ (1023 : ℤ))) 2).1 (by simp [statesAfter, applyCall])
    have hcash := hmem.1
    unfold CashNonNegative at hcash
    rw [c3] at hcash
    simp [F64.sub, F64.neg, F64.add, F64.le] at hcash

/-- C5, scenario: from cash 1000, after buying 5 of "X" at 10 and after then
selling 5 of "X" at 12, cash and all volumes are non-negative. -/
theorem nonNegative_invariant_witness :
    NonNegative (applyCall (NewPortfolio (.finite 1000)) (Call.buy "X" (.finite 10) 5)).1 ∧
    NonNegative (applyCall
      (applyCall (NewPortfolio (.finite 1000)) (Call.buy "X" (.finite 10) 5)).1
      (Call.sell "X" (.finite 12) 5)).1 := by
  have i5 : (0 : Int) < 5 ∧ IsInt 5 := by
    unfold IsInt minInt maxInt; norm_num
  have o5 : F64.ofInt 5 = .finite 5 := by
    have := round64_small_int 5 2 (by norm_num) (by norm_num) (by norm_num)
    unfold F64.ofInt
    simpa using this
  have r50 : round64 (10 * 5) = .finite (10 * 5) := by
    have := round64_small_int 50 5 (by norm_num) (by norm_num) (by norm_num)
    have e : (10 : ℚ) * 5 = ((50 : ℕ) : ℚ) := by norm_num
    rw [e]; exact this
  have h := nonNegative_invariant (.finite 1000)
    [Call.buy "X" (.finite 10) 5, Call.sell "X" (.finite 12) 5]
    (by simp [F64.le])
    (by
      intro k hk
      simp only [List.mem_cons, List.mem_singleton, List.not_mem_nil, or_false] at hk
      rcases hk with hk | hk <;> subst hk <;>
        exact ⟨i5.1, i5.2, by simp [Call.price, F64.le]⟩)
  have hcash := h.1 (by
    refine ⟨?_, trivial⟩
    rw [o5]
    simp only [F64.mul, r50, F64.isFinite])
  have hvol := h.2 (by
    refine ⟨?_, trivial, trivial⟩
    intro _
    show (0 : Int) + 5 ≤ maxInt
    unfold maxInt; norm_num)
  exact ⟨⟨hcash _ (by simp [statesAfter]), hvol _ (by simp [statesAfter])⟩,
    ⟨hcash _ (by simp [statesAfter]), hvol _ (by simp [statesAfter])⟩⟩

end Float64

end StockGO
